import Mathlib

/-!
# Verification of `colradpy/solve_matrix_exponential.py`

A shallow embedding of the three entry points of the module
(`solve_matrix_exponential`, `solve_matrix_exponential_steady_state`,
`solve_matrix_exponential_source`) over an arbitrary field `F`.

Modelling conventions:

* Batched numpy arrays become curried functions over `Fin` index types, with the
  same index order as the numpy layout.  A rate matrix `[S, S, k, l]` is
  `Fin S → Fin S → Fin K → Fin L → F`.
* `np.linalg.eig` is an external LAPACK routine, not code of this repository; it
  is modelled as an oracle parameter `eig` mapping each batch element's matrix
  to a pair (eigenvalues, eigenvector matrix).  Theorems that need the
  decomposition to be genuine take it as a hypothesis.
* `np.exp` is likewise modelled as an abstract elementwise map `expf : F → F`;
  the proofs only ever use the hypothesis `expf 0 = 1`.
* `np.linalg.inv` is the adjugate-based inverse `minv`; on invertible input it
  agrees with the true inverse (numpy raises on singular input, and every claim
  about inversion carries an invertibility hypothesis).
* Exact arithmetic over a field replaces floating point, as the spec's
  "exactly in exact arithmetic" readings require.
-/

namespace ColRadPy

section Core

variable {F : Type} [Field F]

/-- Model of `np.linalg.inv`: the adjugate formula `det⁻¹ • adjugate`.  It
agrees with the two-sided inverse whenever the determinant is nonzero. -/
def minv {n : Nat} (A : Matrix (Fin n) (Fin n) F) : Matrix (Fin n) (Fin n) F :=
  A.det⁻¹ • A.adjugate

/-- The batch element `(k, l)` of `matrix.transpose(2,3,0,1)`: the `S × S`
matrix seen by `np.linalg.eig` for a 4-d input of layout `[S, S, k, l]`. -/
def mT4 {S K L : Nat} (matrix : Fin S → Fin S → Fin K → Fin L → F) (k : Fin K) (l : Fin L) :
    Matrix (Fin S) (Fin S) F :=
  Matrix.of fun i j => matrix i j k l

/-- The batch element `k` of `matrix.transpose(2,0,1)` for a 3-d input of
layout `[S, S, k]`. -/
def mT3 {S K : Nat} (matrix : Fin S → Fin S → Fin K → F) (k : Fin K) :
    Matrix (Fin S) (Fin S) F :=
  Matrix.of fun i j => matrix i j k

/-- Embedding of `solve_matrix_exponential(matrix, td_n0, td_t)`.

The python body is
```
eigenvals, eigenvectors = np.linalg.eig(matrix.transpose(2,3,0,1))
v0 = np.dot(np.linalg.inv(eigenvectors), td_n0)
vt = v0[:,:,:,None] * np.exp(eigenvals[:,:,:,None] * td_t)
td_pop = np.einsum('klij,kljt->itkl', eigenvectors, vt)
eigenvals = eigenvals.transpose(2,0,1)
eigenvectors = eigenvectors.transpose(2,3,0,1)
return td_pop, eigenvals, eigenvectors
```
The returned triple is `(td_pop [S,T,k,l], eigenvals [S,k,l],
eigenvectors [S,S,k,l])`. -/
def solve_matrix_exponential {S K L T : Nat} (expf : F → F)
    (eig : Matrix (Fin S) (Fin S) F → (Fin S → F) × Matrix (Fin S) (Fin S) F)
    (matrix : Fin S → Fin S → Fin K → Fin L → F) (td_n0 : Fin S → F) (td_t : Fin T → F) :
    (Fin S → Fin T → Fin K → Fin L → F) × (Fin S → Fin K → Fin L → F) ×
      (Fin S → Fin S → Fin K → Fin L → F) :=
  let eigenvals : Fin K → Fin L → Fin S → F := fun k l => (eig (mT4 matrix k l)).1
  let eigenvectors : Fin K → Fin L → Matrix (Fin S) (Fin S) F := fun k l => (eig (mT4 matrix k l)).2
  let v0 : Fin K → Fin L → Fin S → F := fun k l => (minv (eigenvectors k l)).mulVec td_n0
  let vt : Fin K → Fin L → Fin S → Fin T → F :=
    fun k l j t => v0 k l j * expf (eigenvals k l j * td_t t)
  let td_pop : Fin S → Fin T → Fin K → Fin L → F :=
    fun i t k l => ∑ j, eigenvectors k l i j * vt k l j t
  (td_pop, fun s k l => eigenvals k l s, fun i j k l => eigenvectors k l i j)

/-- The synthetic initial vector built by the steady-state solver: `1` in state
`0`, `0` elsewhere (`td_n0 = np.zeros(S); td_n0[0] = 1.`). -/
def steady_n0 (S : Nat) : Fin S → F := fun i => if i.val = 0 then 1 else 0

end Core

section Steady

variable {F : Type} [LinearOrderedField F]

/-- Model of `np.abs(eigenvals).argsort(axis)` on one batch lane: the indices
`0, …, S-1` sorted by ascending absolute value of the eigenvalue.  Numpy's
quicksort leaves the tie order unspecified; a stable sort is used here. -/
def argsortAbs {S : Nat} (v : Fin S → F) : List (Fin S) :=
  List.insertionSort (fun i j => |v i| ≤ |v j|) (List.finRange S)

/-- The eigen index selected by the steady-state solver for one batch lane:
entry `0` of the argsort, i.e. an index of smallest absolute eigenvalue. -/
def steadySel {S : Nat} [NeZero S] (v : Fin S → F) : Fin S := (argsortAbs v).headD 0

/-- Embedding of the 4-d branch of
`solve_matrix_exponential_steady_state(matrix)`.

After the eigendecomposition and the projection
`v0 = np.dot(np.linalg.inv(eigenvectors), td_n0)`, the code sorts the eigen
index by `np.abs(eigenvals).argsort(axis)` and keeps only entry `0` of the
sorted axis:
```
ev = eigenvectors.transpose(0,1,3,2)[index]
ss_pop = np.einsum('kl,klj->klj', v0[index][:,:,0], ev[:,:,0,:]).transpose(2,0,1)
```
so `ss_pop[j,k,l] = v0[k,l,m] * eigenvectors[k,l,j,m]` with `m` the index of
the smallest-magnitude eigenvalue of batch element `(k,l)`.  The returned
`eigenvals`/`eigenvectors` are the raw (unsorted, batch-leading) eig outputs. -/
def solve_matrix_exponential_steady_state4 {S K L : Nat} [NeZero S]
    (eig : Matrix (Fin S) (Fin S) F → (Fin S → F) × Matrix (Fin S) (Fin S) F)
    (matrix : Fin S → Fin S → Fin K → Fin L → F) :
    (Fin S → Fin K → Fin L → F) × (Fin K → Fin L → Fin S → F) ×
      (Fin K → Fin L → Fin S → Fin S → F) :=
  let eigenvals : Fin K → Fin L → Fin S → F := fun k l => (eig (mT4 matrix k l)).1
  let eigenvectors : Fin K → Fin L → Matrix (Fin S) (Fin S) F := fun k l => (eig (mT4 matrix k l)).2
  let v0 : Fin K → Fin L → Fin S → F := fun k l => (minv (eigenvectors k l)).mulVec (steady_n0 S)
  let sel : Fin K → Fin L → Fin S := fun k l => steadySel (eigenvals k l)
  ((fun j k l => v0 k l (sel k l) * eigenvectors k l j (sel k l)),
   fun k l s => eigenvals k l s, fun k l i j => eigenvectors k l i j)

/-- Embedding of the 3-d branch of `solve_matrix_exponential_steady_state`,
identical to the 4-d branch with a single batch dimension. -/
def solve_matrix_exponential_steady_state3 {S K : Nat} [NeZero S]
    (eig : Matrix (Fin S) (Fin S) F → (Fin S → F) × Matrix (Fin S) (Fin S) F)
    (matrix : Fin S → Fin S → Fin K → F) :
    (Fin S → Fin K → F) × (Fin K → Fin S → F) × (Fin K → Fin S → Fin S → F) :=
  let eigenvals : Fin K → Fin S → F := fun k => (eig (mT3 matrix k)).1
  let eigenvectors : Fin K → Matrix (Fin S) (Fin S) F := fun k => (eig (mT3 matrix k)).2
  let v0 : Fin K → Fin S → F := fun k => (minv (eigenvectors k)).mulVec (steady_n0 S)
  let sel : Fin K → Fin S := fun k => steadySel (eigenvals k)
  ((fun j k => v0 k (sel k) * eigenvectors k j (sel k)),
   fun k s => eigenvals k s, fun k i j => eigenvectors k i j)

end Steady

section SourceSolver

/-- Recursive worker for `npDelete`: walk the list with the running position. -/
def npDeleteGo {α : Type} (ds : List Nat) : List α → Nat → List α
  | [], _ => []
  | x :: xs, i => if i ∈ ds then npDeleteGo ds xs (i + 1) else x :: npDeleteGo ds xs (i + 1)

/-- Model of `np.delete(arr, ds, axis)` acting on the axis of `arr` represented
as the list `xs`: keep the entries whose position is not mentioned in `ds`.
Numpy raises `IndexError` when an index is out of bounds for the axis, hence
the `Option`. -/
def npDelete {α : Type} (xs : List α) (ds : List Nat) : Option (List α) :=
  if ds.all (fun d => d < xs.length) then some (npDeleteGo ds xs 0) else none

/-- Sequential worker for `npInsert`: the pairs are already stably sorted by
position, and the `i`-th insertion happens at its stated position plus the
offset `i` (numpy's `indices[order] += np.arange(numnew)`). -/
def npInsertGo {α : Type} : List α → List (Nat × α) → Nat → List α
  | xs, [], _ => xs
  | xs, (p, v) :: rest, off => npInsertGo (xs.insertIdx (p + off) v) rest (off + 1)

/-- Model of `np.insert(arr, ps, vals, axis)` on an axis represented as the
list `xs`: value `vs[i]` is inserted at position `ps[i]` of the original axis,
duplicates landing in their given order (numpy stably mergesorts the positions
and offsets them by their rank).  A position greater than the axis length
raises `IndexError`, hence the `Option`. -/
def npInsert {α : Type} (xs : List α) (ps : List Nat) (vs : List α) : Option (List α) :=
  if ps.all (fun p => p ≤ xs.length) then
    some (npInsertGo xs (List.insertionSort (fun a b => a.1 ≤ b.1) (ps.zip vs)) 0)
  else none

variable {F : Type} [Field F] [DecidableEq F]

/-- Model of `np.where(eigenvals == 0)` on the `[k, l, S]` eigenvalue array:
the coordinate triples of the exactly-zero entries, in C (row-major) order. -/
def zeroTriples {S K L : Nat} (eigenvals : Fin K → Fin L → Fin S → F) :
    List (Fin K × Fin L × Fin S) :=
  (((List.finRange K).flatMap fun k => (List.finRange L).flatMap fun l =>
      (List.finRange S).map fun s => (k, l, s))).filter
    fun z => eigenvals z.1 z.2.1 z.2.2 = 0

/-- The index list handed to `np.delete(…, eig_zero_ind, axis=2)`.  The code
passes the whole `np.where` tuple, so `np.asarray` stacks the `k`, `l` and `s`
coordinate arrays and the keep-mask assignment `keep[obj] = False` deletes the
union of all three coordinate sets along the eigen axis. -/
def sourceDeleteIndexSet {S K L : Nat} (eigenvals : Fin K → Fin L → Fin S → F) : List Nat :=
  (zeroTriples eigenvals).map (fun z => (z.1 : Nat)) ++
    (zeroTriples eigenvals).map (fun z => (z.2.1 : Nat)) ++
    (zeroTriples eigenvals).map (fun z => (z.2.2 : Nat))

/-- The positions handed to `np.insert(v_non, eig_zero_ind[2], v_zer, axis=2)`:
only the eigen-axis coordinates of the zeros. -/
def sourceInsertPositions {S K L : Nat} (eigenvals : Fin K → Fin L → Fin S → F) : List Nat :=
  (zeroTriples eigenvals).map fun z => (z.2.2 : Nat)

/-- Embedding of `solve_matrix_exponential_source(matrix, td_n0, source, td_t)`.

The python body is
```
eigenvals, eigenvectors = np.linalg.eig(matrix.transpose(2,3,0,1))
CC = np.dot(np.linalg.inv(eigenvectors), source)
V0 = np.dot(np.linalg.inv(eigenvectors), td_n0)
eig_zero_ind = np.where(eigenvals == 0)
eig_non_zero = np.delete(eigenvals, eig_zero_ind, axis=2)
amplitude_non = np.delete(V0, eig_zero_ind, axis=2) + np.delete(CC, eig_zero_ind, axis=2)/eig_non_zero
amplitude_zer = V0[:,:,eig_zero_ind[2]]
v_non = amplitude_non[:,:,:,None]*np.exp(eig_non_zero[:,:,:,None]*td_t) - \
        np.delete(CC, eig_zero_ind, axis=2)[:,:,:,None]/eig_non_zero[:,:,:,None]
v_zer = CC[:,:,eig_zero_ind[2]][:,:,:,None]*td_t + amplitude_zer[:,:,:,None]
v = np.insert(v_non, eig_zero_ind[2], v_zer, axis=2)
td_pop = np.einsum('klij,kljt->itkl', eigenvectors, v)
return td_pop, eigenvals, eigenvectors
```
The eigen axis of `v` is represented as a list of lanes (each lane a function
of batch and time); all `np.delete` calls share the same positions, so they are
applied once to the list of eigen indices.  `none` models the `IndexError` of
an out-of-range delete or insert index and the `ValueError` of the final
`einsum` when the reassembled eigen axis no longer has length `S`.  The
returned eigenvalues and eigenvectors are the raw batch-leading eig outputs
(no final transpose in this entry point). -/
def solve_matrix_exponential_source {S K L T : Nat} (expf : F → F)
    (eig : Matrix (Fin S) (Fin S) F → (Fin S → F) × Matrix (Fin S) (Fin S) F)
    (matrix : Fin S → Fin S → Fin K → Fin L → F) (td_n0 source : Fin S → F)
    (td_t : Fin T → F) :
    Option ((Fin S → Fin T → Fin K → Fin L → F) × (Fin K → Fin L → Fin S → F) ×
      (Fin K → Fin L → Fin S → Fin S → F)) :=
  let eigenvals : Fin K → Fin L → Fin S → F := fun k l => (eig (mT4 matrix k l)).1
  let eigenvectors : Fin K → Fin L → Matrix (Fin S) (Fin S) F := fun k l => (eig (mT4 matrix k l)).2
  let CC : Fin K → Fin L → Fin S → F := fun k l => (minv (eigenvectors k l)).mulVec source
  let V0 : Fin K → Fin L → Fin S → F := fun k l => (minv (eigenvectors k l)).mulVec td_n0
  match npDelete (List.finRange S) (sourceDeleteIndexSet eigenvals) with
  | none => none
  | some keepIdx =>
    let v_non : List (Fin K → Fin L → Fin T → F) :=
      keepIdx.map fun j => fun k l t =>
        (V0 k l j + CC k l j / eigenvals k l j) * expf (eigenvals k l j * td_t t) -
          CC k l j / eigenvals k l j
    let v_zer : List (Fin K → Fin L → Fin T → F) :=
      (zeroTriples eigenvals).map fun z => fun k l t =>
        CC k l z.2.2 * td_t t + V0 k l z.2.2
    match npInsert v_non (sourceInsertPositions eigenvals) v_zer with
    | none => none
    | some v =>
      if h : v.length = S then
        some ((fun i t k l => ∑ j, eigenvectors k l i j * v.get (Fin.cast h.symm j) k l t),
          eigenvals, fun k l i j => eigenvectors k l i j)
      else none

end SourceSolver

section RankDispatch

/-- An untyped numpy array: a shape together with row-agnostic entry access by
multi-index.  Only in-range indices are ever read. -/
structure NDArray (F : Type) where
  shape : List Nat
  data : List Nat → F

/-- The number of dimensions (`len(np.shape(matrix))`). -/
def NDArray.ndim {F : Type} (a : NDArray F) : Nat := a.shape.length

/-- The possible results of the steady-state entry point: one constructor per
supported input rank, carrying populations, eigenvalues and eigenvectors. -/
inductive SSDyn (F : Type) : Type where
  | r4 (S K L : Nat) (pop : Fin S → Fin K → Fin L → F) (vals : Fin K → Fin L → Fin S → F)
      (vecs : Fin K → Fin L → Fin S → Fin S → F) : SSDyn F
  | r3 (S K : Nat) (pop : Fin S → Fin K → F) (vals : Fin K → Fin S → F)
      (vecs : Fin K → Fin S → Fin S → F) : SSDyn F

variable {F : Type} [LinearOrderedField F]

/-- Embedding of the rank dispatch of `solve_matrix_exponential_steady_state`:
the body only assigns `eigenvals, eigenvectors` under `if ndim == 4` and
`if ndim == 3`, so any other rank reaches `np.linalg.inv(eigenvectors)` with
`eigenvectors` unbound and the call dies with a `NameError` (modelled as
`none`).  `np.linalg.eig` also raises on a non-square matrix block, and an
empty eigen axis makes the `[:,:,0]` selection raise `IndexError`; both are
modelled as `none` in the corresponding branch. -/
def solve_matrix_exponential_steady_state
    (eig : (n : Nat) → Matrix (Fin n) (Fin n) F → (Fin n → F) × Matrix (Fin n) (Fin n) F)
    (a : NDArray F) : Option (SSDyn F) :=
  if a.ndim = 4 then
    if h : a.shape.getD 1 0 = a.shape.getD 0 0 ∧ 0 < a.shape.getD 0 0 then
      haveI : NeZero (a.shape.getD 0 0) := ⟨Nat.pos_iff_ne_zero.mp h.2⟩
      let S := a.shape.getD 0 0
      let K := a.shape.getD 2 0
      let L := a.shape.getD 3 0
      let m : Fin S → Fin S → Fin K → Fin L → F :=
        fun i j k l => a.data [i.val, j.val, k.val, l.val]
      let r := solve_matrix_exponential_steady_state4 (eig S) m
      some (SSDyn.r4 S K L r.1 r.2.1 r.2.2)
    else none
  else if a.ndim = 3 then
    if h : a.shape.getD 1 0 = a.shape.getD 0 0 ∧ 0 < a.shape.getD 0 0 then
      haveI : NeZero (a.shape.getD 0 0) := ⟨Nat.pos_iff_ne_zero.mp h.2⟩
      let S := a.shape.getD 0 0
      let K := a.shape.getD 2 0
      let m : Fin S → Fin S → Fin K → F := fun i j k => a.data [i.val, j.val, k.val]
      let r := solve_matrix_exponential_steady_state3 (eig S) m
      some (SSDyn.r3 S K r.1 r.2.1 r.2.2)
    else none
  else none

end RankDispatch

section ConcreteInputs

/-- A concrete eigensolver oracle for diagonal rational matrices: eigenvalues
are the diagonal entries and the eigenvector matrix is the identity.  On
diagonal input it is a genuine eigendecomposition. -/
def diagEig (n : Nat) : Matrix (Fin n) (Fin n) ℚ → (Fin n → ℚ) × Matrix (Fin n) (Fin n) ℚ :=
  fun A => (fun j => A j j, 1)

/-- The all-zero `1 × 1` rate matrix with a single batch element. -/
def zeroMatrix1 : Fin 1 → Fin 1 → Fin 1 → Fin 1 → ℚ := fun _ _ _ _ => 0

/-- The constant-one `1 × 1` rate matrix with a single batch element. -/
def oneMatrix1 : Fin 1 → Fin 1 → Fin 1 → Fin 1 → ℚ := fun _ _ _ _ => 1

/-- `diag(1, 0)` over a single batch element: one exactly-zero eigenvalue at
eigen index `1`. -/
def srcBugMatrix : Fin 2 → Fin 2 → Fin 1 → Fin 1 → ℚ :=
  fun i j _ _ => if i.val = 0 ∧ j.val = 0 then 1 else 0

/-- Diagonal `2 × 2` blocks over a `2 × 2` batch whose eigenvalues
`1 + s + 2k + 4l` distinguish every index position. -/
def layoutMatrix : Fin 2 → Fin 2 → Fin 2 → Fin 2 → ℚ :=
  fun i j k l => if i = j then ((1 + i.val + 2 * k.val + 4 * l.val : Nat) : ℚ) else 0

/-- `diag(5, 1)` over a single batch element: eigenvalues in strictly
descending absolute value. -/
def unsortedMatrix : Fin 2 → Fin 2 → Fin 1 → Fin 1 → ℚ :=
  fun i j _ _ => if i = j then (if i.val = 0 then 5 else 1) else 0

/-- A rank-2 array (`ndim = 2`), outside both steady-state branches. -/
def rank2Array : NDArray ℚ := ⟨[5, 5], fun _ => 0⟩

/-- The all-zero `1 × 1` rate matrix with a single 3-d batch element. -/
def zeroMatrix3 : Fin 1 → Fin 1 → Fin 1 → ℚ := fun _ _ _ => 0

/-- A stand-in for `np.exp` in concrete witnesses; only `expf 0 = 1` ever
matters. -/
def expfW : ℚ → ℚ := fun x => x + 1

/-- Concrete length-1 state vector (all ones). -/
def n0W : Fin 1 → ℚ := fun _ => 1

/-- Concrete length-1 time grid containing the time `0`. -/
def t0W : Fin 1 → ℚ := fun _ => 0

/-- Concrete designated inverse of the identity eigenvector batch. -/
def W1 : Fin 1 → Fin 1 → Matrix (Fin 1) (Fin 1) ℚ := fun _ _ => 1

end ConcreteInputs

/-! ## Helper lemmas -/

section MinvLemmas

variable {F : Type} [Field F]

theorem minv_mul {n : Nat} (A : Matrix (Fin n) (Fin n) F) (h : A.det ≠ 0) : minv A * A = 1 := by
  rw [minv, Matrix.smul_mul, Matrix.adjugate_mul, smul_smul, inv_mul_cancel₀ h, one_smul]

theorem mul_minv {n : Nat} (A : Matrix (Fin n) (Fin n) F) (h : A.det ≠ 0) : A * minv A = 1 := by
  rw [minv, Matrix.mul_smul, Matrix.mul_adjugate, smul_smul, inv_mul_cancel₀ h, one_smul]

theorem minv_eq_of_inv {n : Nat} (A W : Matrix (Fin n) (Fin n) F)
    (h1 : A * W = 1) (h2 : W * A = 1) : minv A = W := by
  have hd : A.det * W.det = 1 := by rw [← Matrix.det_mul, h1, Matrix.det_one]
  have hA : A.det ≠ 0 := left_ne_zero_of_mul_eq_one hd
  calc minv A = minv A * (A * W) := by rw [h1, mul_one]
    _ = minv A * A * W := by rw [mul_assoc]
    _ = W := by rw [minv_mul A hA, one_mul]

theorem minv_one {n : Nat} : minv (1 : Matrix (Fin n) (Fin n) F) = 1 := by
  rw [minv, Matrix.det_one, Matrix.adjugate_one, inv_one, one_smul]

end MinvLemmas

section ArgsortLemmas

variable {F : Type} [LinearOrderedField F]

theorem argsortAbs_sorted {S : Nat} (v : Fin S → F) :
    List.Pairwise (fun a b => |v a| ≤ |v b|) (argsortAbs v) := by
  haveI : IsTotal (Fin S) (fun a b => |v a| ≤ |v b|) := ⟨fun a b => le_total _ _⟩
  haveI : IsTrans (Fin S) (fun a b => |v a| ≤ |v b|) := ⟨fun a b c hab hbc => le_trans hab hbc⟩
  exact List.sorted_insertionSort _ _

theorem argsortAbs_mem {S : Nat} (v : Fin S → F) (x : Fin S) : x ∈ argsortAbs v := by
  rw [argsortAbs, List.mem_insertionSort]
  exact List.mem_finRange x

theorem argsortAbs_headD_min {S : Nat} [NeZero S] (v : Fin S → F) (j : Fin S) :
    |v ((argsortAbs v).headD 0)| ≤ |v j| := by
  cases h : argsortAbs v with
  | nil =>
    have hj := argsortAbs_mem v j
    rw [h] at hj
    simp at hj
  | cons y ys =>
    have hmem := argsortAbs_mem v j
    rw [h] at hmem
    have hs := argsortAbs_sorted v
    rw [h] at hs
    rcases List.mem_cons.mp hmem with rfl | hmem2
    · simp
    · simpa using List.rel_of_sorted_cons hs j hmem2

theorem steadySel_min {S : Nat} [NeZero S] (v : Fin S → F) (j : Fin S) :
    |v (steadySel v)| ≤ |v j| :=
  argsortAbs_headD_min v j

end ArgsortLemmas

/-! ## Claims about the time-dependent solver -/

/-- Claim C1: for a diagonalizable batched rate matrix (with a working
eigendecomposition and invertible eigenvector matrices of designated inverse
`W`), `solve_matrix_exponential` returns
`td_pop[i,t,k,l] = Σ_j eigenvectors[k,l,i,j] · (eigenvectors[k,l]⁻¹·td_n0)[j]
· exp(eigenvals[k,l,j] · td_t[t])`. -/
theorem td_solver_formula {F : Type} [Field F] {S K L T : Nat} (expf : F → F)
    (eig : Matrix (Fin S) (Fin S) F → (Fin S → F) × Matrix (Fin S) (Fin S) F)
    (matrix : Fin S → Fin S → Fin K → Fin L → F) (td_n0 : Fin S → F) (td_t : Fin T → F)
    (W : Fin K → Fin L → Matrix (Fin S) (Fin S) F)
    (hdiag : ∀ k l, mT4 matrix k l * (eig (mT4 matrix k l)).2 =
      (eig (mT4 matrix k l)).2 * Matrix.diagonal (eig (mT4 matrix k l)).1)
    (hW : ∀ k l, (eig (mT4 matrix k l)).2 * W k l = 1 ∧
      W k l * (eig (mT4 matrix k l)).2 = 1) :
    ∀ i t k l, (solve_matrix_exponential expf eig matrix td_n0 td_t).1 i t k l =
      ∑ j, (eig (mT4 matrix k l)).2 i j * (W k l).mulVec td_n0 j *
        expf ((eig (mT4 matrix k l)).1 j * td_t t) := by
  intro i t k l
  have hm : minv (eig (mT4 matrix k l)).2 = W k l := minv_eq_of_inv _ _ (hW k l).1 (hW k l).2
  simp only [solve_matrix_exponential, hm]
  exact Finset.sum_congr rfl fun j _ => by ring

/-- Witness for C1 at a concrete diagonal `1 × 1` input. -/
theorem td_solver_formula_witness :
    ((mT4 zeroMatrix1 0 0 * (diagEig 1 (mT4 zeroMatrix1 0 0)).2 =
        (diagEig 1 (mT4 zeroMatrix1 0 0)).2 *
          Matrix.diagonal (diagEig 1 (mT4 zeroMatrix1 0 0)).1) ∧
      ((diagEig 1 (mT4 zeroMatrix1 0 0)).2 * W1 0 0 = 1)) ∧
    (solve_matrix_exponential expfW (diagEig 1) zeroMatrix1 n0W t0W).1 0 0 0 0 =
      ∑ j, (diagEig 1 (mT4 zeroMatrix1 0 0)).2 0 j * (W1 0 0).mulVec n0W j *
        expfW ((diagEig 1 (mT4 zeroMatrix1 0 0)).1 j * t0W 0) := by
  have hdiag : ∀ k l, mT4 zeroMatrix1 k l * (diagEig 1 (mT4 zeroMatrix1 k l)).2 =
      (diagEig 1 (mT4 zeroMatrix1 k l)).2 * Matrix.diagonal (diagEig 1 (mT4 zeroMatrix1 k l)).1 := by
    intro k l
    ext i j
    fin_cases i; fin_cases j
    simp [mT4, diagEig, zeroMatrix1, Matrix.diagonal]
  have hW : ∀ k l, (diagEig 1 (mT4 zeroMatrix1 k l)).2 * W1 k l = 1 ∧
      W1 k l * (diagEig 1 (mT4 zeroMatrix1 k l)).2 = 1 := by
    intro k l
    constructor <;> simp [diagEig, W1]
  exact ⟨⟨hdiag 0 0, (hW 0 0).1⟩,
    td_solver_formula expfW (diagEig 1) zeroMatrix1 n0W t0W W1 hdiag hW 0 0 0 0⟩

/-- Claim C2: for a diagonalizable batched rate matrix with invertible
eigenvector matrices, and a time grid containing the value `0` at entry `τ`,
the time-dependent population at `τ` equals `td_n0` for every state and batch
element (exact arithmetic). -/
theorem td_solver_initial_recovery {F : Type} [Field F] {S K L T : Nat} (expf : F → F)
    (eig : Matrix (Fin S) (Fin S) F → (Fin S → F) × Matrix (Fin S) (Fin S) F)
    (matrix : Fin S → Fin S → Fin K → Fin L → F) (td_n0 : Fin S → F) (td_t : Fin T → F)
    (hexp : expf 0 = 1)
    (hdiag : ∀ k l, mT4 matrix k l * (eig (mT4 matrix k l)).2 =
      (eig (mT4 matrix k l)).2 * Matrix.diagonal (eig (mT4 matrix k l)).1)
    (hdet : ∀ k l, ((eig (mT4 matrix k l)).2).det ≠ 0)
    (τ : Fin T) (hτ : td_t τ = 0) :
    ∀ i k l, (solve_matrix_exponential expf eig matrix td_n0 td_t).1 i τ k l = td_n0 i := by
  intro i k l
  simp only [solve_matrix_exponential, hτ, mul_zero, hexp, mul_one]
  have hsum : ∑ j, (eig (mT4 matrix k l)).2 i j *
        (minv (eig (mT4 matrix k l)).2).mulVec td_n0 j
      = ((eig (mT4 matrix k l)).2 * minv (eig (mT4 matrix k l)).2).mulVec td_n0 i := by
    rw [← Matrix.mulVec_mulVec]
    simp [Matrix.mulVec, Matrix.dotProduct]
  rw [hsum, mul_minv _ (hdet k l), Matrix.one_mulVec]

/-- Witness for C2 at a concrete diagonal `1 × 1` input with `td_t = [0]`. -/
theorem td_solver_initial_recovery_witness :
    ((expfW 0 = 1) ∧ (((diagEig 1 (mT4 zeroMatrix1 0 0)).2).det ≠ 0) ∧ t0W 0 = 0) ∧
    (solve_matrix_exponential expfW (diagEig 1) zeroMatrix1 n0W t0W).1 0 0 0 0 = n0W 0 := by
  have hdiag : ∀ k l, mT4 zeroMatrix1 k l * (diagEig 1 (mT4 zeroMatrix1 k l)).2 =
      (diagEig 1 (mT4 zeroMatrix1 k l)).2 * Matrix.diagonal (diagEig 1 (mT4 zeroMatrix1 k l)).1 := by
    intro k l
    ext i j
    fin_cases i; fin_cases j
    simp [mT4, diagEig, zeroMatrix1, Matrix.diagonal]
  have hexp : expfW 0 = 1 := by norm_num [expfW]
  have hdet : ∀ k l : Fin 1, ((diagEig 1 (mT4 zeroMatrix1 k l)).2).det ≠ 0 := by
    intro k l
    simp [diagEig, Matrix.det_one]
  have hτ : t0W 0 = 0 := rfl
  exact ⟨⟨hexp, hdet 0 0, hτ⟩,
    td_solver_initial_recovery expfW (diagEig 1) zeroMatrix1 n0W t0W hexp hdiag hdet 0 hτ 0 0 0⟩

/-- Claim C8: if every column of each batch element of the rate matrix sums to
zero, the time-dependent populations summed over states equal the sum of
`td_n0` at every requested time, for every batch element (exact arithmetic,
diagonalizable matrix, working decomposition). -/
theorem td_solver_conservation {F : Type} [Field F] {S K L T : Nat} (expf : F → F)
    (eig : Matrix (Fin S) (Fin S) F → (Fin S → F) × Matrix (Fin S) (Fin S) F)
    (matrix : Fin S → Fin S → Fin K → Fin L → F) (td_n0 : Fin S → F) (td_t : Fin T → F)
    (hexp : expf 0 = 1)
    (hcols : ∀ k l j, ∑ i, matrix i j k l = 0)
    (hdiag : ∀ k l, mT4 matrix k l * (eig (mT4 matrix k l)).2 =
      (eig (mT4 matrix k l)).2 * Matrix.diagonal (eig (mT4 matrix k l)).1)
    (hdet : ∀ k l, ((eig (mT4 matrix k l)).2).det ≠ 0) :
    ∀ t k l, ∑ i, (solve_matrix_exponential expf eig matrix td_n0 td_t).1 i t k l =
      ∑ i, td_n0 i := by
  intro t k l
  have hu : ∀ j, (∑ i, (eig (mT4 matrix k l)).2 i j) * (eig (mT4 matrix k l)).1 j = 0 := by
    intro j
    have h1 : ∑ i, (mT4 matrix k l * (eig (mT4 matrix k l)).2) i j = 0 := by
      simp only [Matrix.mul_apply]
      rw [Finset.sum_comm]
      refine Finset.sum_eq_zero fun m _ => ?_
      rw [← Finset.sum_mul]
      have hcol : ∑ i, mT4 matrix k l i m = 0 := hcols k l m
      rw [hcol, zero_mul]
    have h2 : ∑ i, ((eig (mT4 matrix k l)).2 * Matrix.diagonal (eig (mT4 matrix k l)).1) i j =
        (∑ i, (eig (mT4 matrix k l)).2 i j) * (eig (mT4 matrix k l)).1 j := by
      simp only [Matrix.mul_diagonal]
      rw [Finset.sum_mul]
    rw [hdiag k l] at h1
    rw [h2] at h1
    exact h1
  simp only [solve_matrix_exponential]
  rw [Finset.sum_comm]
  have hterm : ∀ j, ∑ i, (eig (mT4 matrix k l)).2 i j *
        ((minv (eig (mT4 matrix k l)).2).mulVec td_n0 j *
          expf ((eig (mT4 matrix k l)).1 j * td_t t))
      = ∑ i, (eig (mT4 matrix k l)).2 i j * (minv (eig (mT4 matrix k l)).2).mulVec td_n0 j := by
    intro j
    rw [← Finset.sum_mul, ← Finset.sum_mul]
    by_cases hl : (eig (mT4 matrix k l)).1 j = 0
    · rw [hl, zero_mul, hexp, mul_comm ((minv (eig (mT4 matrix k l)).2).mulVec td_n0 j), one_mul]
    · have hu0 : (∑ i, (eig (mT4 matrix k l)).2 i j) = 0 :=
        (mul_eq_zero.mp (hu j)).resolve_right hl
      rw [hu0, zero_mul, zero_mul]
  calc ∑ j, ∑ i, (eig (mT4 matrix k l)).2 i j *
        ((minv (eig (mT4 matrix k l)).2).mulVec td_n0 j *
          expf ((eig (mT4 matrix k l)).1 j * td_t t))
      = ∑ j, ∑ i, (eig (mT4 matrix k l)).2 i j *
          (minv (eig (mT4 matrix k l)).2).mulVec td_n0 j := Finset.sum_congr rfl fun j _ => hterm j
    _ = ∑ i, ∑ j, (eig (mT4 matrix k l)).2 i j *
          (minv (eig (mT4 matrix k l)).2).mulVec td_n0 j := Finset.sum_comm
    _ = ∑ i, ((eig (mT4 matrix k l)).2 * minv (eig (mT4 matrix k l)).2).mulVec td_n0 i := by
        refine Finset.sum_congr rfl fun i _ => ?_
        rw [← Matrix.mulVec_mulVec]
        simp [Matrix.mulVec, Matrix.dotProduct]
    _ = ∑ i, td_n0 i := by rw [mul_minv _ (hdet k l), Matrix.one_mulVec]

/-- Witness for C8 at the concrete all-zero `1 × 1` rate matrix (columns sum
to zero trivially). -/
theorem td_solver_conservation_witness :
    ((expfW 0 = 1) ∧ (∑ i, zeroMatrix1 i 0 0 0 = 0) ∧
      (((diagEig 1 (mT4 zeroMatrix1 0 0)).2).det ≠ 0)) ∧
    (∑ i, (solve_matrix_exponential expfW (diagEig 1) zeroMatrix1 n0W t0W).1 i 0 0 0 =
      ∑ i, n0W i) := by
  have hdiag : ∀ k l, mT4 zeroMatrix1 k l * (diagEig 1 (mT4 zeroMatrix1 k l)).2 =
      (diagEig 1 (mT4 zeroMatrix1 k l)).2 * Matrix.diagonal (diagEig 1 (mT4 zeroMatrix1 k l)).1 := by
    intro k l
    ext i j
    fin_cases i; fin_cases j
    simp [mT4, diagEig, zeroMatrix1, Matrix.diagonal]
  have hexp : expfW 0 = 1 := by norm_num [expfW]
  have hcols : ∀ (k l j : Fin 1), ∑ i, zeroMatrix1 i j k l = 0 := by
    intro k l j
    simp [zeroMatrix1]
  have hdet : ∀ k l : Fin 1, ((diagEig 1 (mT4 zeroMatrix1 k l)).2).det ≠ 0 := by
    intro k l
    simp [diagEig, Matrix.det_one]
  exact ⟨⟨hexp, hcols 0 0 0, hdet 0 0⟩,
    td_solver_conservation expfW (diagEig 1) zeroMatrix1 n0W t0W hexp hcols hdiag hdet 0 0 0⟩

/-! ## Claims about the steady-state solver -/

/-- Claim C3: for diagonalizable rate matrices of rank 4 (`[S,S,k,l]`) and
rank 3 (`[S,S,k]`), the steady-state solver projects the synthetic initial
vector (1 in state 0, 0 elsewhere) into the eigenbasis and returns, per batch
element, the eigenvector of a smallest-absolute-value eigenvalue scaled by
that mode's projected amplitude. -/
theorem steady_state_smallest_mode {F : Type} [LinearOrderedField F] {S K L : Nat} [NeZero S]
    (eig4 : Matrix (Fin S) (Fin S) F → (Fin S → F) × Matrix (Fin S) (Fin S) F)
    (M4 : Fin S → Fin S → Fin K → Fin L → F)
    (W4 : Fin K → Fin L → Matrix (Fin S) (Fin S) F)
    (hW4 : ∀ k l, (eig4 (mT4 M4 k l)).2 * W4 k l = 1 ∧ W4 k l * (eig4 (mT4 M4 k l)).2 = 1)
    {S3 K3 : Nat} [NeZero S3]
    (eig3 : Matrix (Fin S3) (Fin S3) F → (Fin S3 → F) × Matrix (Fin S3) (Fin S3) F)
    (M3 : Fin S3 → Fin S3 → Fin K3 → F)
    (W3 : Fin K3 → Matrix (Fin S3) (Fin S3) F)
    (hW3 : ∀ k, (eig3 (mT3 M3 k)).2 * W3 k = 1 ∧ W3 k * (eig3 (mT3 M3 k)).2 = 1) :
    (∀ k l j, |(eig4 (mT4 M4 k l)).1 (steadySel ((eig4 (mT4 M4 k l)).1))| ≤
        |(eig4 (mT4 M4 k l)).1 j| ∧
      (solve_matrix_exponential_steady_state4 eig4 M4).1 j k l =
        (W4 k l).mulVec (steady_n0 S) (steadySel ((eig4 (mT4 M4 k l)).1)) *
          (eig4 (mT4 M4 k l)).2 j (steadySel ((eig4 (mT4 M4 k l)).1))) ∧
    (∀ k j, |(eig3 (mT3 M3 k)).1 (steadySel ((eig3 (mT3 M3 k)).1))| ≤
        |(eig3 (mT3 M3 k)).1 j| ∧
      (solve_matrix_exponential_steady_state3 eig3 M3).1 j k =
        (W3 k).mulVec (steady_n0 S3) (steadySel ((eig3 (mT3 M3 k)).1)) *
          (eig3 (mT3 M3 k)).2 j (steadySel ((eig3 (mT3 M3 k)).1))) := by
  constructor
  · intro k l j
    refine ⟨steadySel_min _ j, ?_⟩
    have hm : minv (eig4 (mT4 M4 k l)).2 = W4 k l := minv_eq_of_inv _ _ (hW4 k l).1 (hW4 k l).2
    simp only [solve_matrix_exponential_steady_state4, hm]
  · intro k j
    refine ⟨steadySel_min _ j, ?_⟩
    have hm : minv (eig3 (mT3 M3 k)).2 = W3 k := minv_eq_of_inv _ _ (hW3 k).1 (hW3 k).2
    simp only [solve_matrix_exponential_steady_state3, hm]

/-- Witness for C3 at concrete `1 × 1` rank-4 and rank-3 inputs. -/
theorem steady_state_smallest_mode_witness :
    ((diagEig 1 (mT4 zeroMatrix1 0 0)).2 * W1 0 0 = 1) ∧
    ((diagEig 1 (mT3 zeroMatrix3 0)).2 * 1 = 1) ∧
    (|(diagEig 1 (mT4 zeroMatrix1 0 0)).1 (steadySel ((diagEig 1 (mT4 zeroMatrix1 0 0)).1))| ≤
        |(diagEig 1 (mT4 zeroMatrix1 0 0)).1 0| ∧
      (solve_matrix_exponential_steady_state4 (diagEig 1) zeroMatrix1).1 0 0 0 =
        (W1 0 0).mulVec (steady_n0 1) (steadySel ((diagEig 1 (mT4 zeroMatrix1 0 0)).1)) *
          (diagEig 1 (mT4 zeroMatrix1 0 0)).2 0 (steadySel ((diagEig 1 (mT4 zeroMatrix1 0 0)).1))) ∧
    (|(diagEig 1 (mT3 zeroMatrix3 0)).1 (steadySel ((diagEig 1 (mT3 zeroMatrix3 0)).1))| ≤
        |(diagEig 1 (mT3 zeroMatrix3 0)).1 0| ∧
      (solve_matrix_exponential_steady_state3 (diagEig 1) zeroMatrix3).1 0 0 =
        (1 : Matrix (Fin 1) (Fin 1) ℚ).mulVec (steady_n0 1)
          (steadySel ((diagEig 1 (mT3 zeroMatrix3 0)).1)) *
          (diagEig 1 (mT3 zeroMatrix3 0)).2 0 (steadySel ((diagEig 1 (mT3 zeroMatrix3 0)).1))) := by
  have hW4 : ∀ k l, (diagEig 1 (mT4 zeroMatrix1 k l)).2 * W1 k l = 1 ∧
      W1 k l * (diagEig 1 (mT4 zeroMatrix1 k l)).2 = 1 := by
    intro k l
    constructor <;> simp [diagEig, W1]
  have hW3 : ∀ k, (diagEig 1 (mT3 zeroMatrix3 k)).2 * (1 : Matrix (Fin 1) (Fin 1) ℚ) = 1 ∧
      (1 : Matrix (Fin 1) (Fin 1) ℚ) * (diagEig 1 (mT3 zeroMatrix3 k)).2 = 1 := by
    intro k
    constructor <;> simp [diagEig]
  exact ⟨(hW4 0 0).1, (hW3 0).1,
    (steady_state_smallest_mode (diagEig 1) zeroMatrix1 W1 hW4 (diagEig 1) zeroMatrix3
      (fun _ => 1) hW3).1 0 0 0,
    (steady_state_smallest_mode (diagEig 1) zeroMatrix1 W1 hW4 (diagEig 1) zeroMatrix3
      (fun _ => 1) hW3).2 0 0⟩

/-- Counterexample to C7 as stated: at a concrete diagonal input with
eigenvalues `(5, 1)`, the eigenvalue array returned by the steady-state solver
is not in ascending order of absolute value along the eigen axis. -/
theorem steady_state_eigenvals_unsorted_cex :
    ¬ (|(solve_matrix_exponential_steady_state4 (diagEig 2) unsortedMatrix).2.1 0 0 0| ≤
        |(solve_matrix_exponential_steady_state4 (diagEig 2) unsortedMatrix).2.1 0 0 1|) := by
  decide

/-- Amended C7: the steady-state solver sorts eigen indices by ascending
absolute eigenvalue per batch element only internally (to select the steady
mode); the eigenvalue array it returns, like the one the time-dependent solver
returns, is in the raw order produced by the eigensolver. -/
theorem steady_state_sort_internal_only {F : Type} [LinearOrderedField F] {S K L T : Nat}
    [NeZero S] (expf : F → F)
    (eig : Matrix (Fin S) (Fin S) F → (Fin S → F) × Matrix (Fin S) (Fin S) F)
    (M4 : Fin S → Fin S → Fin K → Fin L → F) (td_n0 : Fin S → F) (td_t : Fin T → F) :
    (∀ k l s, (solve_matrix_exponential_steady_state4 eig M4).2.1 k l s =
      (eig (mT4 M4 k l)).1 s) ∧
    (∀ k l, List.Pairwise (fun a b => |(eig (mT4 M4 k l)).1 a| ≤ |(eig (mT4 M4 k l)).1 b|)
      (argsortAbs ((eig (mT4 M4 k l)).1))) ∧
    (∀ s k l, (solve_matrix_exponential expf eig M4 td_n0 td_t).2.1 s k l =
      (eig (mT4 M4 k l)).1 s) :=
  ⟨fun _ _ _ => rfl, fun k l => argsortAbs_sorted _, fun _ _ _ => rfl⟩

/-- Witness for the amended C7 at a concrete input. -/
theorem steady_state_sort_internal_only_witness :
    (solve_matrix_exponential_steady_state4 (diagEig 2) unsortedMatrix).2.1 0 0 0 =
      (diagEig 2 (mT4 unsortedMatrix 0 0)).1 0 :=
  (steady_state_sort_internal_only expfW (diagEig 2) unsortedMatrix (fun _ => 1) t0W).1 0 0 0

/-- Counterexample to C6 as stated: the steady-state solver does not transpose
its returned eigenvalues back to the eigen-leading layout.  At a concrete
diagonal input whose eigenvalues distinguish every index position, the entry at
position `(1,0,0)` of the returned array is the eigenvalue of batch element
`(1,0)` at eigen index `0` rather than the claimed eigenvalue of batch element
`(0,0)` at eigen index `1`. -/
theorem steady_state_layout_cex :
    (solve_matrix_exponential_steady_state4 (diagEig 2) layoutMatrix).2.1 1 0 0 ≠
      (diagEig 2 (mT4 layoutMatrix 0 0)).1 1 := by
  decide

/-- Amended C6: only the time-dependent solver transposes the eigendecomposition
back to the eigen-leading layout (`[S,k,l]` / `[S,S,k,l]`); the steady-state
solver and (whenever it returns) the source solver return the raw batch-leading
arrays (`[k,l,S]` / `[k,l,S,S]`). -/
theorem eigen_output_layouts {F : Type} [LinearOrderedField F] [DecidableEq F]
    {S K L T : Nat} [NeZero S] (expf : F → F)
    (eig : Matrix (Fin S) (Fin S) F → (Fin S → F) × Matrix (Fin S) (Fin S) F)
    (M4 : Fin S → Fin S → Fin K → Fin L → F) (td_n0 source : Fin S → F) (td_t : Fin T → F) :
    (∀ s k l, (solve_matrix_exponential expf eig M4 td_n0 td_t).2.1 s k l =
      (solve_matrix_exponential_steady_state4 eig M4).2.1 k l s) ∧
    (∀ i j k l, (solve_matrix_exponential expf eig M4 td_n0 td_t).2.2 i j k l =
      (solve_matrix_exponential_steady_state4 eig M4).2.2 k l i j) ∧
    (∀ k l s, (solve_matrix_exponential_steady_state4 eig M4).2.1 k l s =
      (eig (mT4 M4 k l)).1 s) ∧
    (∀ k l i j, (solve_matrix_exponential_steady_state4 eig M4).2.2 k l i j =
      (eig (mT4 M4 k l)).2 i j) ∧
    ((solve_matrix_exponential_source expf eig M4 td_n0 source td_t).elim True fun r =>
      r.2.1 = (solve_matrix_exponential_steady_state4 eig M4).2.1 ∧
      r.2.2 = (solve_matrix_exponential_steady_state4 eig M4).2.2) := by
  refine ⟨fun _ _ _ => rfl, fun _ _ _ _ => rfl, fun _ _ _ => rfl, fun _ _ _ _ => rfl, ?_⟩
  cases hsrc : solve_matrix_exponential_source expf eig M4 td_n0 source td_t with
  | none => exact trivial
  | some r =>
    simp only [Option.elim]
    simp only [solve_matrix_exponential_source] at hsrc
    split at hsrc
    · exact absurd hsrc (by simp)
    · split at hsrc
      · exact absurd hsrc (by simp)
      · split at hsrc
        · rw [Option.some.injEq] at hsrc
          subst hsrc
          exact ⟨rfl, rfl⟩
        · exact absurd hsrc (by simp)

/-- Witness for the amended C6 at a concrete input. -/
theorem eigen_output_layouts_witness :
    (solve_matrix_exponential expfW (diagEig 2) layoutMatrix (fun _ => 1) t0W).2.1 0 0 0 =
      (solve_matrix_exponential_steady_state4 (diagEig 2) layoutMatrix).2.1 0 0 0 :=
  (eigen_output_layouts expfW (diagEig 2) layoutMatrix (fun _ => 1) (fun _ => 1) t0W).1 0 0 0

/-- Claim C9: the steady-state entry point assigns the eigendecomposition only
in its rank-4 and rank-3 branches; for any other input rank the call fails
(unbound `eigenvectors`) instead of returning a value. -/
theorem steady_state_rank_dispatch_only34 {F : Type} [LinearOrderedField F]
    (eig : (n : Nat) → Matrix (Fin n) (Fin n) F → (Fin n → F) × Matrix (Fin n) (Fin n) F)
    (a : NDArray F) (h3 : a.ndim ≠ 3) (h4 : a.ndim ≠ 4) :
    solve_matrix_exponential_steady_state eig a = none := by
  unfold solve_matrix_exponential_steady_state
  rw [if_neg h4, if_neg h3]

/-- Witness for C9 at a concrete rank-2 array. -/
theorem steady_state_rank_dispatch_only34_witness :
    (rank2Array.ndim ≠ 3 ∧ rank2Array.ndim ≠ 4) ∧
    solve_matrix_exponential_steady_state (fun n => diagEig n) rank2Array = none := by
  have h3 : rank2Array.ndim ≠ 3 := by decide
  have h4 : rank2Array.ndim ≠ 4 := by decide
  exact ⟨⟨h3, h4⟩, steady_state_rank_dispatch_only34 (fun n => diagEig n) rank2Array h3 h4⟩

/-! ## Claims about the source-term solver -/

section SourceLemmas

theorem npDeleteGo_nil {α : Type} (xs : List α) (i : Nat) : npDeleteGo [] xs i = xs := by
  induction xs generalizing i with
  | nil => rfl
  | cons x xs ih => simp [npDeleteGo, ih]

theorem npDelete_nil {α : Type} (xs : List α) : npDelete xs [] = some xs := by
  simp [npDelete, npDeleteGo_nil]

theorem npInsert_nil {α : Type} (xs : List α) : npInsert xs [] [] = some xs := by
  simp [npInsert, npInsertGo, List.insertionSort]

variable {F : Type} [Field F] [DecidableEq F]

theorem mem_zeroTriples {S K L : Nat} (eigenvals : Fin K → Fin L → Fin S → F)
    (z : Fin K × Fin L × Fin S) :
    z ∈ zeroTriples eigenvals ↔ eigenvals z.1 z.2.1 z.2.2 = 0 := by
  unfold zeroTriples
  rw [List.mem_filter]
  simp only [List.mem_flatMap, List.mem_map, List.mem_finRange, true_and, decide_eq_true_eq]
  constructor
  · rintro ⟨⟨k, l, s, hz⟩, h0⟩
    exact h0
  · intro h0
    exact ⟨⟨z.1, z.2.1, z.2.2, rfl⟩, h0⟩

end SourceLemmas

/-- Claim C4 evaluation: the source solver fails (no value is returned) on
`diag(1, 0)` with a single batch element, an input on which the claimed
per-mode formula is perfectly well defined.  The exactly-zero eigenvalue sits
at eigen index `1`, so `np.where` yields the triple `([0], [0], [1])`; passing
that whole tuple to `np.delete` deletes the union `{0, 1}` of its coordinate
values along the eigen axis, leaving no non-zero lanes, and the subsequent
`np.insert` at position `1` of a length-0 axis raises `IndexError`. -/
theorem source_solver_delete_tuple_failure :
    solve_matrix_exponential_source expfW (diagEig 2) srcBugMatrix (fun _ => 1) (fun _ => 1)
      t0W = none := by
  rfl

/-- Claim C10: the zero-mode bookkeeping of the source solver is global.  A
mode index is re-inserted as a zero mode exactly when its eigenvalue is exactly
zero in some (arbitrary) batch element, and the index set passed to
`np.delete` consists of every coordinate value of every exact zero of the
whole batched eigenvalue array; neither depends on the batch element being
evolved, so the partition is identical across batch elements. -/
theorem source_partition_global {F : Type} [Field F] [DecidableEq F] {S K L : Nat}
    (eigenvals : Fin K → Fin L → Fin S → F) :
    (∀ j : Fin S, (j : Nat) ∈ sourceInsertPositions eigenvals ↔ ∃ k l, eigenvals k l j = 0) ∧
    (∀ d : Nat, d ∈ sourceDeleteIndexSet eigenvals ↔
      ∃ k l s, eigenvals k l s = 0 ∧ (d = (k : Nat) ∨ d = (l : Nat) ∨ d = (s : Nat))) := by
  constructor
  · intro j
    simp only [sourceInsertPositions, List.mem_map]
    constructor
    · rintro ⟨z, hz, hzj⟩
      have h0 := (mem_zeroTriples eigenvals z).mp hz
      have hs : z.2.2 = j := Fin.ext hzj
      exact ⟨z.1, z.2.1, hs ▸ h0⟩
    · rintro ⟨k, l, h0⟩
      exact ⟨(k, l, j), (mem_zeroTriples eigenvals (k, l, j)).mpr h0, rfl⟩
  · intro d
    simp only [sourceDeleteIndexSet, List.mem_append, List.mem_map]
    constructor
    · rintro ((⟨z, hz, hzd⟩ | ⟨z, hz, hzd⟩) | ⟨z, hz, hzd⟩)
      · exact ⟨z.1, z.2.1, z.2.2, (mem_zeroTriples eigenvals z).mp hz, Or.inl hzd.symm⟩
      · exact ⟨z.1, z.2.1, z.2.2, (mem_zeroTriples eigenvals z).mp hz, Or.inr (Or.inl hzd.symm)⟩
      · exact ⟨z.1, z.2.1, z.2.2, (mem_zeroTriples eigenvals z).mp hz,
          Or.inr (Or.inr hzd.symm)⟩
    · rintro ⟨k, l, s, h0, (rfl | rfl | rfl)⟩
      · exact Or.inl (Or.inl ⟨(k, l, s), (mem_zeroTriples eigenvals (k, l, s)).mpr h0, rfl⟩)
      · exact Or.inl (Or.inr ⟨(k, l, s), (mem_zeroTriples eigenvals (k, l, s)).mpr h0, rfl⟩)
      · exact Or.inr ⟨(k, l, s), (mem_zeroTriples eigenvals (k, l, s)).mpr h0, rfl⟩

/-- Counterexample to C5 as stated: with an all-zero source vector (and no
exact zero eigenvalue anywhere, so the source solver does return), the
eigenvalue array returned by the source solver differs from the one returned
by the plain time-dependent solver: the former is batch-leading, the latter
eigen-leading.  At the concrete layout-distinguishing diagonal input the entry
at position `(1,0,0)` differs. -/
theorem source_zero_source_reduction_cex :
    Option.map (fun r => r.2.1 1 0 0)
        (solve_matrix_exponential_source expfW (diagEig 2) layoutMatrix (fun _ => 1) 0 t0W) ≠
      some ((solve_matrix_exponential expfW (diagEig 2) layoutMatrix (fun _ => 1) t0W).2.1
        1 0 0) := by
  decide

/-- Amended C5: with an all-zero source vector and no exactly-zero eigenvalue
in the batched eigenvalue array, the source solver succeeds and returns exactly
the populations of the plain time-dependent solver; its returned eigenvalues
and eigenvectors also agree with the plain solver's up to the final layout
transposition (which only the plain solver performs). -/
theorem source_zero_source_reduction {F : Type} [Field F] [DecidableEq F] {S K L T : Nat}
    (expf : F → F) (eig : Matrix (Fin S) (Fin S) F → (Fin S → F) × Matrix (Fin S) (Fin S) F)
    (matrix : Fin S → Fin S → Fin K → Fin L → F) (td_n0 : Fin S → F) (td_t : Fin T → F)
    (hnz : ∀ k l s, (eig (mT4 matrix k l)).1 s ≠ 0) :
    solve_matrix_exponential_source expf eig matrix td_n0 0 td_t =
      some ((solve_matrix_exponential expf eig matrix td_n0 td_t).1,
        fun k l s => (solve_matrix_exponential expf eig matrix td_n0 td_t).2.1 s k l,
        fun k l i j => (solve_matrix_exponential expf eig matrix td_n0 td_t).2.2 i j k l) := by
  have hzt : zeroTriples (fun k l => (eig (mT4 matrix k l)).1) = [] := by
    rw [zeroTriples, List.filter_eq_nil_iff]
    intro z hz
    simpa using hnz z.1 z.2.1 z.2.2
  have hds : sourceDeleteIndexSet (fun k l => (eig (mT4 matrix k l)).1) = [] := by
    simp [sourceDeleteIndexSet, hzt]
  have hip : sourceInsertPositions (fun k l => (eig (mT4 matrix k l)).1) = [] := by
    simp [sourceInsertPositions, hzt]
  have hlen : ∀ f : Fin S → Fin K → Fin L → Fin T → F,
      ((List.finRange S).map f).length = S := by
    simp
  simp only [solve_matrix_exponential_source, solve_matrix_exponential, hds, hip, hzt,
    List.map_nil, npDelete_nil, npInsert_nil]
  rw [dif_pos (hlen _)]
  refine congrArg some ?_
  simp only [Prod.mk.injEq, and_true, true_and, and_self, eq_self_iff_true]
  funext i t k l
  refine Finset.sum_congr rfl fun j _ => ?_
  have hget : ∀ (f : Fin S → Fin K → Fin L → Fin T → F) (x : Fin (((List.finRange S).map f).length)),
      ((List.finRange S).map f).get x = f ⟨x.val, by simpa using x.isLt⟩ := by
    intro f x
    simp [List.get_eq_getElem, List.getElem_map, List.getElem_finRange]
  rw [hget]
  simp [Matrix.mulVec_zero]

/-- Witness for the amended C5 at a concrete `1 × 1` input with eigenvalue 1. -/
theorem source_zero_source_reduction_witness :
    ((diagEig 1 (mT4 oneMatrix1 0 0)).1 0 ≠ 0) ∧
    solve_matrix_exponential_source expfW (diagEig 1) oneMatrix1 n0W 0 t0W =
      some ((solve_matrix_exponential expfW (diagEig 1) oneMatrix1 n0W t0W).1,
        fun k l s => (solve_matrix_exponential expfW (diagEig 1) oneMatrix1 n0W t0W).2.1 s k l,
        fun k l i j =>
          (solve_matrix_exponential expfW (diagEig 1) oneMatrix1 n0W t0W).2.2 i j k l) := by
  have hnz : ∀ k l s : Fin 1, (diagEig 1 (mT4 oneMatrix1 k l)).1 s ≠ 0 := by decide
  exact ⟨hnz 0 0 0, source_zero_source_reduction expfW (diagEig 1) oneMatrix1 n0W t0W hnz⟩

end ColRadPy
